import Mathlib

/-!
Verification of the pendulum dataset generator and contrastive losses of
pendulum.py.

The numeric code works with numpy float arrays; it is embedded here over the
real numbers, so "within a small numeric tolerance" becomes exact equality
over ℝ.  Arrays of shape (a, b, ...) are embedded as functions
Fin a → Fin b → ... .  The random draws performed by the code
(rng.uniform, rng.shuffle, rng.standard_normal, random.randint) are embedded
as explicit oracle arguments: an arbitrary time array, an arbitrary
per-trajectory permutation, an arbitrary noise realization, an arbitrary
index draw.  The external library routine scipy.special.ellipj is embedded
by an oracle function together with the algebraic identities its
documentation guarantees (`EllipjValid`); numpy's round-half-to-even
np.round is embedded by an oracle `rnd : ℝ → ℤ` together with the bound
|rnd z - z| ≤ 1/2 that every rounding-to-nearest satisfies.
-/

/-- Output triple (sn, cn, dn) of scipy.special.ellipj evaluated at (u, m). -/
structure Ellipj where
  sn : ℝ
  cn : ℝ
  dn : ℝ

/-- The identities guaranteed for the Jacobi elliptic functions with
parameter 0 ≤ m ≤ 1: sn² + cn² = 1 and dn² = 1 − m·sn² with dn ≥ 0. -/
def EllipjValid (E : ℝ → ℝ → Ellipj) : Prop :=
  ∀ u m : ℝ, 0 ≤ m → m ≤ 1 →
    (E u m).sn ^ 2 + (E u m).cn ^ 2 = 1 ∧
    0 ≤ (E u m).dn ∧ (E u m).dn ^ 2 = 1 - m * (E u m).sn ^ 2

/-- Angle of the pendulum, source line `q = 2 * np.arcsin(np.sqrt(k2) * sn)`. -/
noncomputable def pendulumQ (E : ℝ → ℝ → Ellipj) (u m : ℝ) : ℝ :=
  2 * Real.arcsin (Real.sqrt m * (E u m).sn)

/-- Angular momentum, source line
`p = 2 * np.sqrt(k2) * cn * dn / np.sqrt(1 - k2 * sn ** 2)`. -/
noncomputable def pendulumP (E : ℝ → ℝ → Ellipj) (u m : ℝ) : ℝ :=
  2 * Real.sqrt m * (E u m).cn * (E u m).dn /
    Real.sqrt (1 - m * (E u m).sn ^ 2)

/-- Total energy, source line `H = 0.5 * p ** 2 - np.cos(q) + 1`. -/
noncomputable def pendulumH (q p : ℝ) : ℝ := 0.5 * p ^ 2 - Real.cos q + 1

/-- The quantity `diffH = H - 2 * k2` that `check_energy` asserts to be
(numerically) zero. -/
noncomputable def checkEnergyDiff (E : ℝ → ℝ → Ellipj) (u m : ℝ) : ℝ :=
  pendulumH (pendulumQ E u m) (pendulumP E u m) - 2 * m

/-- Non-image branch of `pendulum_train_gen` (lines 156-178).  The uniform
time draws `t`, the per-trajectory shuffle permutations `sh` and the
standard-normal noise realization `g` are oracle arguments standing for the
numpy random draws; `k2` is the energy array (uniform draw when the caller
passed None, the constant array `k2 * np.ones((B, 1))` otherwise).  The code
adds noise only under `if noise > 0`.  Returns the pair (energies, data)
where data b s = (q, p); the (B, T, 2) stacked array is a function to
ℝ × ℝ. -/
noncomputable def pendulum_train_gen_nonimage (B T : ℕ) (E : ℝ → ℝ → Ellipj)
    (t : Fin B → Fin T → ℝ) (k2 : Fin B → ℝ) (sh : Fin B → Equiv.Perm (Fin T))
    (noise : ℝ) (g : Fin B → Fin T → ℝ × ℝ) :
    (Fin B → ℝ) × (Fin B → Fin T → ℝ × ℝ) :=
  (k2, fun b s =>
    (pendulumQ E (t b (sh b s)) (k2 b) + (if 0 < noise then noise else 0) * (g b s).1,
     pendulumP E (t b (sh b s)) (k2 b) + (if 0 < noise then noise else 0) * (g b s).2))

/-- Gap-mode adjustment of one energy (lines 186-188):
`if np.floor(k2[i,0,0] * 3) % 2 == 1: k2[i,0,0] = k2[i,0,0] - 1/3`. -/
noncomputable def gapShift (k : ℝ) : ℝ :=
  if Int.floor (k * 3) % 2 = 1 then k - 1 / 3 else k

/-- The energy array after the optional gap-mode pass over the batch. -/
noncomputable def gapK2 (B : ℕ) (k2 : Fin B → ℝ) (gaps : Bool) : Fin B → ℝ :=
  fun b => if gaps then gapShift (k2 b) else k2 b

/-- String length (line 192): `str_len = img_size - 2 - img_size // 2 - bob_size`
with Python floor division on nonnegative ints. -/
def strLen (img bob : ℕ) : ℤ :=
  (img : ℤ) - 2 - ((img / 2 : ℕ) : ℤ) - (bob : ℤ)

/-- Bob-centre x pixel coordinate (line 213):
`x = center_x + np.round(np.cos(q) * str_len)` with `center_x = img_size // 2`.
`rnd` is an oracle for np.round (round half to even). -/
noncomputable def bobX (img bob : ℕ) (rnd : ℝ → ℤ) (q : ℝ) : ℤ :=
  ((img / 2 : ℕ) : ℤ) + rnd (Real.cos q * (strLen img bob : ℝ))

/-- Bob-centre y pixel coordinate (line 214):
`y = center_y + np.round(np.sin(q) * str_len)`. -/
noncomputable def bobY (img bob : ℕ) (rnd : ℝ → ℤ) (q : ℝ) : ℤ :=
  ((img / 2 : ℕ) : ℤ) + rnd (Real.sin q * (strLen img bob : ℝ))

/-- The property of np.round used by the proofs: it rounds to a nearest
integer.  (np.round is round-half-to-even, which satisfies this.) -/
def RoundNearest (rnd : ℝ → ℤ) : Prop := ∀ z : ℝ, |(rnd z : ℝ) - z| ≤ 1 / 2

/-- The colour-channel table `c = np.array([[1, 1], [0, 2]])` (line 228):
entry at (write-pass w, view v).  View 0 zeroes channels 1 and 0, view 1
zeroes channels 1 and 2. -/
def bobChan (w v : Fin 2) : Fin 3 :=
  if w.val = 0 then 1 else if v.val = 0 then 0 else 2

/-- numpy integer indexing: a negative index -k addresses element n-k. -/
def wrapIdx (n : ℕ) (z : ℤ) : ℤ := if z < 0 then z + n else z

/-- The scatter write of lines 216-242 in semantic form.  The flattened index
tensor `idx_final` enumerates, for every write pass w : Fin 2, bob offset
(di, dj) ∈ [-bob, bob]², and view v : Fin 2, the write
`pxls[b, t, x[b,t,v]+di, y[b,t,v]+dj, c[w,v]] = 0`
(bob_idx supplies the offsets, pos = (x, y) + bob_idx, c supplies the
channel).  A pixel of image (b, t) is dark (0) exactly when some such write
hits it. -/
def rasterDark (img bob : ℕ) (x y : Fin 2 → ℤ) (px py : ℤ) (ch : Fin 3) : Prop :=
  ∃ v w : Fin 2, ∃ di ∈ Finset.Icc (-(bob : ℤ)) (bob : ℤ),
    ∃ dj ∈ Finset.Icc (-(bob : ℤ)) (bob : ℤ),
      wrapIdx img (x v + di) = px ∧ wrapIdx img (y v + dj) = py ∧ ch = bobChan w v

instance (img bob : ℕ) (x y : Fin 2 → ℤ) (px py : ℤ) (ch : Fin 3) :
    Decidable (rasterDark img bob x y px py ch) := by
  unfold rasterDark; infer_instance

/-- One rendered image after the final `np.swapaxes(pxls, 4, 2)` (line 255):
axes are (channel, y, x), white background 1, written pixels 0.  The index
function mirrors `final[b,t,c,j,i] = pxls[b,t,i,j,c]` where axis 2 of pxls
is the x coordinate and axis 3 the y coordinate. -/
noncomputable def rasterImage (img bob : ℕ) (x y : Fin 2 → ℤ) :
    Fin 3 → Fin img → Fin img → ℝ :=
  fun ch j i => if rasterDark img bob x y (i : ℤ) (j : ℤ) ch then 0 else 1

/-- Angle array of the image branch (lines 195-206) after shuffling and the
conditional noise addition: q = 2 arcsin(√k2 · sn(t, k2)) where the time of
view 0 is t[b,s] and of view 1 is t[b,s] + diff_time, the trajectory axis is
permuted by `sh`, and noise is added only under `if noise > 0`. -/
noncomputable def imageGenQ (B T : ℕ) (E : ℝ → ℝ → Ellipj) (t : Fin B → Fin T → ℝ)
    (dT : ℝ) (k2g : Fin B → ℝ) (sh : Fin B → Equiv.Perm (Fin T)) (noise : ℝ)
    (g : Fin B → Fin T → Fin 2 → ℝ) (b : Fin B) (s : Fin T) (v : Fin 2) : ℝ :=
  2 * Real.arcsin (Real.sqrt (k2g b) *
      (E (t b (sh b s) + if v.val = 0 then 0 else dT) (k2g b)).sn) +
    (if 0 < noise then noise else 0) * g b s v

/-- Image branch of `pendulum_train_gen` (lines 180-256).  Returns
(energies reshaped to (B, 1), images of shape (B, T, 3, img, img)). -/
noncomputable def pendulum_train_gen_image (B T img bob : ℕ) (E : ℝ → ℝ → Ellipj)
    (rnd : ℝ → ℤ) (t : Fin B → Fin T → ℝ) (dT : ℝ) (k2 : Fin B → ℝ) (gaps : Bool)
    (sh : Fin B → Equiv.Perm (Fin T)) (noise : ℝ) (g : Fin B → Fin T → Fin 2 → ℝ) :
    (Fin B → ℝ) × (Fin B → Fin T → Fin 3 → Fin img → Fin img → ℝ) :=
  (gapK2 B k2 gaps, fun b s =>
    rasterImage img bob
      (fun v => bobX img bob rnd (imageGenQ B T E t dT (gapK2 B k2 gaps) sh noise g b s v))
      (fun v => bobY img bob rnd (imageGenQ B T E t dT (gapK2 B k2 gaps) sh noise g b s v)))

/-- The colour channel written only by view v: channel 0 for view 0
(c[1][0]) and channel 2 for view 1 (c[1][1]). -/
def distCh (v : Fin 2) : Fin 3 := if v.val = 0 then 0 else 2

/-- Bounds-checked numpy array read `arr[i]` along an axis of length len. -/
def arrGet {α : Type} (len : ℕ) (f : Fin len → α) (i : ℕ) : Option α :=
  if h : i < len then some (f ⟨i, h⟩) else none

/-- `__getitem__` of both dataset wrappers (lines 265-279 and 290-304):
`i = random.randint(0, trajectory_length - 1)` (inclusive, so i, j range over
[0, trajectory_length)) are oracle draws; returns
[data[idx][i], data[idx][j], k2[idx]].  S is the second dimension of the
stored data array. -/
def datasetGetItem {α : Type} (B S : ℕ) (data : Fin B → Fin S → α)
    (k2 : Fin B → ℝ) (idx : Fin B) (i j : ℕ) : Option (α × α × ℝ) :=
  match arrGet S (data idx) i, arrGet S (data idx) j with
  | some a, some b => some (a, b, k2 idx)
  | _, _ => none

/-- Default `traj_samples` of `pendulum_train_gen` (line 133). -/
def pendulumDefaultTrajSamples : ℕ := 10

/-- Default `trajectory_length` of `PendulumNumericalDataset` (line 260). -/
def numericalDefaultTrajectoryLength : ℕ := 100

/-- torch matrix transpose `M.T`. -/
def matTranspose {a b : ℕ} (M : Fin a → Fin b → ℝ) : Fin b → Fin a → ℝ :=
  fun i j => M j i

/-- torch matrix product `M @ N`. -/
noncomputable def matMul {a b c : ℕ} (M : Fin a → Fin b → ℝ)
    (N : Fin b → Fin c → ℝ) : Fin a → Fin c → ℝ :=
  fun i k => ∑ j, M i j * N j k

/-- torch.diagonal of a square matrix. -/
def matDiagonal {a : ℕ} (M : Fin a → Fin a → ℝ) : Fin a → ℝ := fun i => M i i

/-- `v.repeat(n)` for a length-n vector: n·n entries tiling v. -/
def repeatVec (n : ℕ) (v : Fin n → ℝ) : Fin (n * n) → ℝ := fun i => v i.modNat

/-- `.reshape((n, n))` of a flat length-n·n vector, C order. -/
def reshapeSquare (n : ℕ) (f : Fin (n * n) → ℝ) : Fin n → Fin n → ℝ :=
  fun i j => f ⟨i.val * n + j.val, by
    calc i.val * n + j.val < i.val * n + n := by omega
      _ = (i.val + 1) * n := by ring
      _ ≤ n * n := Nat.mul_le_mul_right n i.isLt⟩

/-- `euclidean_dist` (lines 82-84):
`2 * z1 @ z2.T - torch.diagonal(z1 @ z1.T).repeat(n).reshape((n,n)).T
 - torch.diagonal(z2 @ z2.T).repeat(n).reshape((n,n))`. -/
noncomputable def euclidean_dist {n d : ℕ} (z1 z2 : Fin n → Fin d → ℝ) :
    Fin n → Fin n → ℝ :=
  fun i j =>
    2 * matMul z1 (matTranspose z2) i j -
      matTranspose (reshapeSquare n (repeatVec n
        (matDiagonal (matMul z1 (matTranspose z1))))) i j -
      reshapeSquare n (repeatVec n
        (matDiagonal (matMul z2 (matTranspose z2)))) i j

/-- The two distance variants of the losses. -/
inductive Distance where
  | cosine
  | euclidean
deriving DecidableEq

/-- `F.normalize(z, dim=1)`: each row divided by its Euclidean norm (torch
clamps the norm below by eps = 1e-12; the zero-row edge case is outside the
claims considered here). -/
noncomputable def rowNormalize {n d : ℕ} (z : Fin n → Fin d → ℝ) :
    Fin n → Fin d → ℝ :=
  fun i l => z i l / Real.sqrt (∑ m, z i m ^ 2)

/-- The similarity logits matrix of `info_nce` before temperature scaling:
normalized `z1 @ z2.T` for cosine, `euclidean_dist(z1, z2)` for euclidean. -/
noncomputable def infoNCELogits {n d : ℕ} (z1 z2 : Fin n → Fin d → ℝ)
    (dist : Distance) : Fin n → Fin n → ℝ :=
  match dist with
  | Distance.cosine => matMul (rowNormalize z1) (matTranspose (rowNormalize z2))
  | Distance.euclidean => euclidean_dist z1 z2

/-- Modelled from the external torch documentation:
`torch.nn.functional.cross_entropy(logits, labels)` with mean reduction is
the mean over rows i of `log(∑_j exp(logits[i,j])) - logits[i, labels[i]]`. -/
noncomputable def crossEntropy (n : ℕ) (logits : Fin n → Fin n → ℝ)
    (labels : Fin n → Fin n) : ℝ :=
  (∑ i, (Real.log (∑ j, Real.exp (logits i j)) - logits i (labels i))) / n

/-- `info_nce` (lines 102-131).  Raises UserWarning when
`z1.size()[1] <= 1 and distance == "cosine"`; otherwise returns the
cross-entropy of the temperature-scaled logits against
`labels = torch.arange(0, n)` (label of row i is i). -/
noncomputable def info_nce (n d : ℕ) (z1 z2 : Fin n → Fin d → ℝ)
    (temperature : ℝ) (dist : Distance) : Except String ℝ :=
  if d ≤ 1 ∧ dist = Distance.cosine then
    Except.error "InfoNCE loss has only one dimension, add more dimensions"
  else
    Except.ok (crossEntropy n
      (fun i j => infoNCELogits z1 z2 dist i j / temperature) (fun i => i))

/-- Concrete elliptic oracle used by witnesses: the value of sn, cn, dn at
u = 0 (sn 0 = 0, cn 0 = 1, dn 0 = 1), taken constant. -/
def E0 : ℝ → ℝ → Ellipj := fun _ _ => ⟨0, 1, 1⟩

/-- Concrete rounding oracle used by witnesses. -/
noncomputable def rnd0 : ℝ → ℤ := fun z => Int.floor (z + 1 / 2)

/-- Core algebraic fact: the closed-form (q, p) of the solver satisfies the
energy invariant H = 2m exactly, for any elliptic-function values obeying
the Jacobi identities and any energy 0 ≤ m < 1. -/
theorem pendulum_energy_exact (E : ℝ → ℝ → Ellipj) (hE : EllipjValid E)
    (u m : ℝ) (h0 : 0 ≤ m) (h1 : m < 1) :
    pendulumH (pendulumQ E u m) (pendulumP E u m) = 2 * m := by
  obtain ⟨hsc, hdn0, hdn2⟩ := hE u m h0 h1.le
  set sn := (E u m).sn with hsn
  set cn := (E u m).cn with hcn
  set dn := (E u m).dn with hdn
  have hsn2 : sn ^ 2 ≤ 1 := by nlinarith [sq_nonneg cn]
  have hsm1 : Real.sqrt m ≤ 1 := Real.sqrt_le_one.mpr h1.le
  have hsm0 : 0 ≤ Real.sqrt m := Real.sqrt_nonneg m
  have hmm : Real.sqrt m ^ 2 = m := Real.sq_sqrt h0
  have hx2 : (Real.sqrt m * sn) ^ 2 ≤ 1 := by nlinarith
  have hxlo : -1 ≤ Real.sqrt m * sn := by nlinarith [sq_nonneg (Real.sqrt m * sn + 1)]
  have hxhi : Real.sqrt m * sn ≤ 1 := by nlinarith [sq_nonneg (Real.sqrt m * sn - 1)]
  -- the cosine of the doubled arcsine
  have hq : Real.cos (pendulumQ E u m) = 1 - 2 * (m * sn ^ 2) := by
    rw [pendulumQ, Real.cos_two_mul]
    have hsin : Real.sin (Real.arcsin (Real.sqrt m * sn)) = Real.sqrt m * sn :=
      Real.sin_arcsin hxlo hxhi
    have hpyth := Real.sin_sq_add_cos_sq (Real.arcsin (Real.sqrt m * sn))
    rw [hsin] at hpyth
    nlinarith [hpyth]
  -- the momentum simplifies to 2 √m cn
  have hden : Real.sqrt (1 - m * sn ^ 2) = dn := by
    rw [← hdn2, Real.sqrt_sq hdn0]
  have hdnpos : 0 < dn := by nlinarith
  have hp : pendulumP E u m = 2 * Real.sqrt m * cn := by
    rw [pendulumP, ← hsn, ← hcn, ← hdn, hden, mul_div_assoc,
      div_self (ne_of_gt hdnpos), mul_one]
  rw [pendulumH, hq, hp]
  have h05 : (0.5 : ℝ) = 1 / 2 := by norm_num
  rw [h05]
  nlinarith [hsc, hmm]

/-- The constant oracle E0 satisfies the Jacobi identities. -/
theorem E0_valid : EllipjValid E0 := by
  intro u m _ _
  simp [E0]

/-- C1: for every batch size, trajectory count and energy k ∈ [0, 1), every
phase-space sample of the non-image branch satisfies
0.5·p² − cos θ + 1 = 2k exactly (diffH = 0), so the `check_energy` assertion
of `pendulum_train_gen` never fires; with the default noise 0 the returned
data samples satisfy the invariant as well. -/
theorem c1_energy_invariant (B T : ℕ) (E : ℝ → ℝ → Ellipj) (hE : EllipjValid E)
    (t : Fin B → Fin T → ℝ) (k2 : Fin B → ℝ)
    (hk : ∀ b, 0 ≤ k2 b ∧ k2 b < 1)
    (sh : Fin B → Equiv.Perm (Fin T)) (g : Fin B → Fin T → ℝ × ℝ) :
    (∀ (b : Fin B) (s : Fin T), checkEnergyDiff E (t b s) (k2 b) = 0) ∧
    ∀ (b : Fin B) (s : Fin T),
      pendulumH ((pendulum_train_gen_nonimage B T E t k2 sh 0 g).2 b s).1
        ((pendulum_train_gen_nonimage B T E t k2 sh 0 g).2 b s).2 = 2 * k2 b := by
  constructor
  · intro b s
    have h := pendulum_energy_exact E hE (t b s) (k2 b) (hk b).1 (hk b).2
    simp [checkEnergyDiff, h]
  · intro b s
    have h := pendulum_energy_exact E hE (t b (sh b s)) (k2 b) (hk b).1 (hk b).2
    simpa [pendulum_train_gen_nonimage] using h

theorem c1_energy_invariant_witness :
    EllipjValid E0 ∧
    (∀ b : Fin 1, 0 ≤ (fun _ : Fin 1 => (1 / 2 : ℝ)) b ∧
      (fun _ : Fin 1 => (1 / 2 : ℝ)) b < 1) ∧
    ((∀ (b : Fin 1) (s : Fin 1), checkEnergyDiff E0 0 (1 / 2) = 0) ∧
     ∀ (b : Fin 1) (s : Fin 1),
       pendulumH
         ((pendulum_train_gen_nonimage 1 1 E0 (fun _ _ => 0)
             (fun _ => 1 / 2) (fun _ => Equiv.refl _) 0 0).2 b s).1
         ((pendulum_train_gen_nonimage 1 1 E0 (fun _ _ => 0)
             (fun _ => 1 / 2) (fun _ => Equiv.refl _) 0 0).2 b s).2 = 2 * (1 / 2)) :=
  ⟨E0_valid, fun _ => by norm_num,
    c1_energy_invariant 1 1 E0 E0_valid (fun _ _ => 0) (fun _ => 1 / 2)
      (fun _ => by norm_num) (fun _ => Equiv.refl _) 0⟩

/-- C4: the scenario batch_size = 4, traj_samples = 3, image off, fixed
energy 0.3 returns the constant-0.3 energy vector (a (4,1) array, embedded
as Fin 4 → ℝ) and a (4,3,2)-shaped data tensor (Fin 4 → Fin 3 → ℝ × ℝ)
whose (θ, p) entries satisfy 0.5·p² − cos θ + 1 = 2·0.3 exactly. -/
theorem c4_fixed_energy_scenario (E : ℝ → ℝ → Ellipj) (hE : EllipjValid E)
    (t : Fin 4 → Fin 3 → ℝ) (sh : Fin 4 → Equiv.Perm (Fin 3))
    (g : Fin 4 → Fin 3 → ℝ × ℝ) :
    (∀ b : Fin 4,
      (pendulum_train_gen_nonimage 4 3 E t (fun _ => 0.3) sh 0 g).1 b = 0.3) ∧
    ∀ (b : Fin 4) (s : Fin 3),
      pendulumH ((pendulum_train_gen_nonimage 4 3 E t (fun _ => 0.3) sh 0 g).2 b s).1
        ((pendulum_train_gen_nonimage 4 3 E t (fun _ => 0.3) sh 0 g).2 b s).2 =
        2 * 0.3 := by
  constructor
  · intro b
    rfl
  · intro b s
    have h := pendulum_energy_exact E hE (t b (sh b s)) 0.3 (by norm_num) (by norm_num)
    simpa [pendulum_train_gen_nonimage] using h

theorem c4_fixed_energy_scenario_witness :
    EllipjValid E0 ∧
    ((∀ b : Fin 4,
        (pendulum_train_gen_nonimage 4 3 E0 (fun _ _ => 0) (fun _ => 0.3)
          (fun _ => Equiv.refl _) 0 0).1 b = 0.3) ∧
     ∀ (b : Fin 4) (s : Fin 3),
       pendulumH
         ((pendulum_train_gen_nonimage 4 3 E0 (fun _ _ => 0) (fun _ => 0.3)
             (fun _ => Equiv.refl _) 0 0).2 b s).1
         ((pendulum_train_gen_nonimage 4 3 E0 (fun _ _ => 0) (fun _ => 0.3)
             (fun _ => Equiv.refl _) 0 0).2 b s).2 = 2 * 0.3) :=
  ⟨E0_valid,
    c4_fixed_energy_scenario E0 E0_valid (fun _ _ => 0) (fun _ => Equiv.refl _) 0⟩

/-- C5: in gap mode, an energy k ∈ [0, 1) is flagged exactly when
⌊3k⌋ is odd, i.e. k ∈ [1/3, 2/3); a flagged energy is shifted down by
exactly 1/3 and lands in [0, 1/3), strictly below every unflagged energy of
the upper bucket [2/3, 1); consequently every post-shift energy lies in
[0, 1/3) ∪ [2/3, 1) and none in [1/3, 2/3). -/
theorem c5_gap_mode (k : ℝ) (hk0 : 0 ≤ k) (hk1 : k < 1) :
    ((Int.floor (k * 3) % 2 = 1) ↔ (1 / 3 ≤ k ∧ k < 2 / 3)) ∧
    (Int.floor (k * 3) % 2 = 1 →
      gapShift k = k - 1 / 3 ∧ 0 ≤ gapShift k ∧ gapShift k < 1 / 3) ∧
    (¬ Int.floor (k * 3) % 2 = 1 →
      gapShift k = k ∧ (k < 1 / 3 ∨ 2 / 3 ≤ k)) ∧
    (0 ≤ gapShift k ∧ gapShift k < 1 ∧
      ¬ (1 / 3 ≤ gapShift k ∧ gapShift k < 2 / 3)) ∧
    (Int.floor (k * 3) % 2 = 1 →
      ∀ k2 : ℝ, 0 ≤ k2 → k2 < 1 → ¬ Int.floor (k2 * 3) % 2 = 1 → 2 / 3 ≤ k2 →
        gapShift k < gapShift k2) := by
  have hfl : ∀ x : ℝ, 0 ≤ x → x < 1 →
      ((Int.floor (x * 3) % 2 = 1) ↔ (1 / 3 ≤ x ∧ x < 2 / 3)) := by
    intro x hx0 hx1
    have hlo : (0 : ℤ) ≤ Int.floor (x * 3) := by
      rw [Int.le_floor]; push_cast; nlinarith
    have hhi : Int.floor (x * 3) < 3 := by
      rw [Int.floor_lt]; push_cast; nlinarith
    constructor
    · intro h
      have h1 : Int.floor (x * 3) = 1 := by omega
      have := Int.floor_eq_iff.mp h1
      push_cast at this
      constructor <;> nlinarith [this.1, this.2]
    · intro ⟨h1, h2⟩
      have h3 : Int.floor (x * 3) = 1 := by
        rw [Int.floor_eq_iff]
        push_cast
        constructor <;> nlinarith
      omega
  refine ⟨hfl k hk0 hk1, ?_, ?_, ?_, ?_⟩
  · intro h
    obtain ⟨h1, h2⟩ := (hfl k hk0 hk1).mp h
    rw [gapShift, if_pos h]
    refine ⟨rfl, by linarith, by linarith⟩
  · intro h
    rw [gapShift, if_neg h]
    have := (hfl k hk0 hk1)
    refine ⟨rfl, ?_⟩
    by_contra hcon
    push_neg at hcon
    exact h (this.mpr ⟨hcon.1, hcon.2⟩)
  · by_cases h : Int.floor (k * 3) % 2 = 1
    · obtain ⟨h1, h2⟩ := (hfl k hk0 hk1).mp h
      rw [gapShift, if_pos h]
      refine ⟨by linarith, by linarith, ?_⟩
      intro ⟨ha, hb⟩
      linarith
    · rw [gapShift, if_neg h]
      have hnot : ¬ (1 / 3 ≤ k ∧ k < 2 / 3) := fun hc => h ((hfl k hk0 hk1).mpr hc)
      push_neg at hnot
      refine ⟨hk0, hk1, ?_⟩
      intro ⟨ha, hb⟩
      exact absurd (hnot ha) (by linarith)
  · intro h k2 h20 h21 h2f h2hi
    obtain ⟨h1, h2⟩ := (hfl k hk0 hk1).mp h
    rw [gapShift, if_pos h, gapShift, if_neg h2f]
    linarith

theorem c5_gap_mode_witness :
    (0 : ℝ) ≤ 1 / 2 ∧ (1 / 2 : ℝ) < 1 ∧
    (((Int.floor ((1 / 2 : ℝ) * 3) % 2 = 1) ↔
        (1 / 3 ≤ (1 / 2 : ℝ) ∧ (1 / 2 : ℝ) < 2 / 3)) ∧
      (Int.floor ((1 / 2 : ℝ) * 3) % 2 = 1 →
        gapShift (1 / 2) = 1 / 2 - 1 / 3 ∧ 0 ≤ gapShift (1 / 2) ∧
          gapShift (1 / 2) < 1 / 3) ∧
      (¬ Int.floor ((1 / 2 : ℝ) * 3) % 2 = 1 →
        gapShift (1 / 2) = 1 / 2 ∧ ((1 / 2 : ℝ) < 1 / 3 ∨ 2 / 3 ≤ (1 / 2 : ℝ))) ∧
      (0 ≤ gapShift (1 / 2) ∧ gapShift (1 / 2) < 1 ∧
        ¬ (1 / 3 ≤ gapShift (1 / 2) ∧ gapShift (1 / 2) < 2 / 3)) ∧
      (Int.floor ((1 / 2 : ℝ) * 3) % 2 = 1 →
        ∀ k2 : ℝ, 0 ≤ k2 → k2 < 1 → ¬ Int.floor (k2 * 3) % 2 = 1 → 2 / 3 ≤ k2 →
          gapShift (1 / 2) < gapShift k2)) :=
  ⟨by norm_num, by norm_num, c5_gap_mode (1 / 2) (by norm_num) (by norm_num)⟩

/-- C9: with shuffle enabled the generator permutes the time-ordering within
each trajectory only: in both modes the returned energy vector is the same
as without shuffling, and sample s of trajectory b equals sample (sh b s) of
the unshuffled output, so every sample of a trajectory keeps exactly the
energy label of that trajectory (shown at the default noise 0). -/
theorem c9_shuffle_within_trajectory (B T img bob : ℕ) (E : ℝ → ℝ → Ellipj)
    (t : Fin B → Fin T → ℝ) (k2 : Fin B → ℝ) (sh : Fin B → Equiv.Perm (Fin T))
    (g : Fin B → Fin T → ℝ × ℝ) (rnd : ℝ → ℤ) (dT : ℝ) (gaps : Bool)
    (gi : Fin B → Fin T → Fin 2 → ℝ) :
    ((pendulum_train_gen_nonimage B T E t k2 sh 0 g).1 =
      (pendulum_train_gen_nonimage B T E t k2 (fun _ => Equiv.refl _) 0 g).1) ∧
    (∀ (b : Fin B) (s : Fin T),
      (pendulum_train_gen_nonimage B T E t k2 sh 0 g).2 b s =
        (pendulum_train_gen_nonimage B T E t k2 (fun _ => Equiv.refl _) 0 g).2 b
          (sh b s)) ∧
    ((pendulum_train_gen_image B T img bob E rnd t dT k2 gaps sh 0 gi).1 =
      (pendulum_train_gen_image B T img bob E rnd t dT k2 gaps
        (fun _ => Equiv.refl _) 0 gi).1) ∧
    (∀ (b : Fin B) (s : Fin T),
      (pendulum_train_gen_image B T img bob E rnd t dT k2 gaps sh 0 gi).2 b s =
        (pendulum_train_gen_image B T img bob E rnd t dT k2 gaps
          (fun _ => Equiv.refl _) 0 gi).2 b (sh b s)) := by
  refine ⟨rfl, ?_, rfl, ?_⟩
  · intro b s
    simp [pendulum_train_gen_nonimage]
  · intro b s
    simp [pendulum_train_gen_image, imageGenQ]

/-- Index fact for repeat-then-reshape: element (a, b) of the reshaped n×n
matrix is element b of the tiled vector. -/
theorem repeatVec_reshape (n : ℕ) (v : Fin n → ℝ) (a b : Fin n) :
    reshapeSquare n (repeatVec n v) a b = v b := by
  simp only [reshapeSquare, repeatVec]
  congr 1
  apply Fin.ext
  simp only [Fin.modNat]
  rw [Nat.add_comm, Nat.add_mul_mod_self_right, Nat.mod_eq_of_lt b.isLt]

/-- C10: `euclidean_dist z1 z2` at (i, j) equals
2·⟨z1ᵢ, z2ⱼ⟩ − ‖z1ᵢ‖² − ‖z2ⱼ‖², the negative squared Euclidean distance
−‖z1ᵢ − z2ⱼ‖², for every pair of row indices. -/
theorem c10_euclidean_dist_closed_form (n d : ℕ) (z1 z2 : Fin n → Fin d → ℝ)
    (i j : Fin n) :
    euclidean_dist z1 z2 i j =
      2 * (∑ l, z1 i l * z2 j l) - (∑ l, z1 i l ^ 2) - (∑ l, z2 j l ^ 2) ∧
    euclidean_dist z1 z2 i j = - ∑ l, (z1 i l - z2 j l) ^ 2 := by
  have h1 : euclidean_dist z1 z2 i j =
      2 * (∑ l, z1 i l * z2 j l) - (∑ l, z1 i l ^ 2) - (∑ l, z2 j l ^ 2) := by
    simp only [euclidean_dist, matTranspose, repeatVec_reshape, matDiagonal,
      matMul]
    congr 1
    · congr 1
      apply Finset.sum_congr rfl
      intro l _
      ring
    · apply Finset.sum_congr rfl
      intro l _
      ring
  refine ⟨h1, ?_⟩
  rw [h1]
  have h2 : ∑ l, (z1 i l - z2 j l) ^ 2 =
      (∑ l, z1 i l ^ 2) - 2 * (∑ l, z1 i l * z2 j l) + (∑ l, z2 j l ^ 2) := by
    rw [Finset.mul_sum, ← Finset.sum_sub_distrib, ← Finset.sum_add_distrib]
    apply Finset.sum_congr rfl
    intro l _
    ring
  rw [h2]
  ring

/-- C8: `info_nce` fails fast with the UserWarning message exactly when the
embedding dimension is ≤ 1 under the cosine variant; otherwise (cosine with
d > 1, or euclidean at any d) it returns the cross-entropy of the row-wise
temperature-scaled similarity logits against the diagonal labels
(label of row i is i). -/
theorem c8_info_nce_validation (n d : ℕ) (z1 z2 : Fin n → Fin d → ℝ)
    (temperature : ℝ) (dist : Distance) :
    (d ≤ 1 ∧ dist = Distance.cosine →
      info_nce n d z1 z2 temperature dist =
        Except.error "InfoNCE loss has only one dimension, add more dimensions") ∧
    (¬ (d ≤ 1 ∧ dist = Distance.cosine) →
      info_nce n d z1 z2 temperature dist =
        Except.ok (crossEntropy n
          (fun i j => infoNCELogits z1 z2 dist i j / temperature)
          (fun i => i))) := by
  constructor
  · intro h
    rw [info_nce, if_pos h]
  · intro h
    rw [info_nce, if_neg h]

theorem c8_info_nce_validation_witness :
    ((1 ≤ 1 ∧ Distance.cosine = Distance.cosine) ∧
      info_nce 1 1 (fun _ _ => (0 : ℝ)) (fun _ _ => (0 : ℝ)) 1 Distance.cosine =
        Except.error "InfoNCE loss has only one dimension, add more dimensions") ∧
    (¬ ((2 : ℕ) ≤ 1 ∧ Distance.cosine = Distance.cosine) ∧
      info_nce 1 2 (fun _ _ => (0 : ℝ)) (fun _ _ => (0 : ℝ)) 1 Distance.cosine =
        Except.ok (crossEntropy 1
          (fun i j => infoNCELogits (fun (_ : Fin 1) (_ : Fin 2) => (0 : ℝ))
            (fun (_ : Fin 1) (_ : Fin 2) => (0 : ℝ)) Distance.cosine i j / 1)
          (fun i => i))) :=
  ⟨⟨⟨Nat.le_refl 1, rfl⟩,
      (c8_info_nce_validation 1 1 (fun _ _ => 0) (fun _ _ => 0) 1
        Distance.cosine).1 ⟨Nat.le_refl 1, rfl⟩⟩,
    ⟨by decide,
      (c8_info_nce_validation 1 2 (fun _ _ => 0) (fun _ _ => 0) 1
        Distance.cosine).2 (by decide)⟩⟩

/-- C6: `get(i)` draws the two time indices fresh on every access (here the
oracle draws i, j and i2, j2 of two separate calls), returns the views
data[idx][i] and data[idx][j], and the energy label of the result is k2[idx],
hence exactly equal across all calls with the same idx.  The draws
`random.randint(0, trajectory_length - 1)` are inclusive on both ends, so
they range over [0, trajectory_length); T ≤ S ensures the accesses are
in bounds (for the image dataset T = S; the numerical dataset violates this,
see the out-of-bounds result about the default sizes). -/
theorem c6_dataset_access {α : Type} (B S T : ℕ) (data : Fin B → Fin S → α)
    (k2 : Fin B → ℝ) (idx : Fin B) (i j i2 j2 : ℕ) (hTS : T ≤ S)
    (hi : i < T) (hj : j < T) (hi2 : i2 < T) (hj2 : j2 < T) :
    (datasetGetItem B S data k2 idx i j =
      some (data idx ⟨i, lt_of_lt_of_le hi hTS⟩,
        data idx ⟨j, lt_of_lt_of_le hj hTS⟩, k2 idx)) ∧
    ∀ r1 r2 : α × α × ℝ,
      datasetGetItem B S data k2 idx i j = some r1 →
      datasetGetItem B S data k2 idx i2 j2 = some r2 →
      r1.2.2 = r2.2.2 := by
  have hgi : ∀ (m : ℕ) (hm : m < T), arrGet S (data idx) m =
      some (data idx ⟨m, lt_of_lt_of_le hm hTS⟩) := by
    intro m hm
    rw [arrGet, dif_pos (lt_of_lt_of_le hm hTS)]
  constructor
  · rw [datasetGetItem, hgi i hi, hgi j hj]
  · intro r1 r2 h1 h2
    rw [datasetGetItem, hgi i hi, hgi j hj] at h1
    rw [datasetGetItem, hgi i2 hi2, hgi j2 hj2] at h2
    cases h1
    cases h2
    rfl

theorem c6_dataset_access_witness :
    (2 ≤ 2 ∧ 0 < 2 ∧ 1 < 2) ∧
    ((datasetGetItem 1 2 (fun _ s => (s : ℕ)) (fun _ => 0) 0 0 1 =
        some ((0 : ℕ), (1 : ℕ), (0 : ℝ))) ∧
      ∀ r1 r2 : ℕ × ℕ × ℝ,
        datasetGetItem 1 2 (fun _ s => (s : ℕ)) (fun _ => 0) 0 0 1 = some r1 →
        datasetGetItem 1 2 (fun _ s => (s : ℕ)) (fun _ => 0) 0 1 0 = some r2 →
        r1.2.2 = r2.2.2) :=
  ⟨⟨le_refl 2, by omega, by omega⟩,
    c6_dataset_access 1 2 2 (fun _ s => (s : ℕ)) (fun _ => 0) 0 0 1 1 0
      (le_refl 2) (by omega) (by omega) (by omega) (by omega)⟩

/-- C7 is false of the code: `PendulumNumericalDataset` with its defaults
stores data of second dimension `pendulum_train_gen`'s default
traj_samples = 10 (the constructor passes no traj_samples), while
`__getitem__` draws i, j from [0, trajectory_length) = [0, 100); every draw
i ≥ 10 (e.g. i = 10) indexes past the second dimension, so the access
`self.data[idx][i]` is out of bounds (numpy raises IndexError, modelled as
`none`). -/
theorem c7_numerical_dataset_out_of_bounds :
    pendulumDefaultTrajSamples < numericalDefaultTrajectoryLength ∧
    (10 ≤ numericalDefaultTrajectoryLength - 1) ∧
    ∀ (data : Fin 1 → Fin pendulumDefaultTrajSamples → ℝ × ℝ)
      (k2 : Fin 1 → ℝ),
      datasetGetItem 1 pendulumDefaultTrajSamples data k2 0 10 0 = none := by
  refine ⟨by decide, by decide, ?_⟩
  intro data k2
  rw [datasetGetItem]
  have h10 : arrGet pendulumDefaultTrajSamples (data 0) 10 = none := by
    rw [arrGet, dif_neg]
    decide
  rw [h10]

/-- An integer whose real value is at most L + 1/2 in absolute value is at
most L in absolute value. -/
theorem int_abs_le_of_real (a L : ℤ) (h : |(a : ℝ)| ≤ (L : ℝ) + 1 / 2) :
    |a| ≤ L := by
  by_contra hc
  push_neg at hc
  have h1 : L + 1 ≤ |a| := hc
  have h2 : ((L : ℝ) + 1 : ℝ) ≤ |(a : ℝ)| := by
    rw [← Int.cast_abs]
    exact_mod_cast h1
  linarith

/-- Rounding w·L to a nearest integer, for |w| ≤ 1 and L ≥ 0, lands
in [-L, L]. -/
theorem rnd_mul_bound (rnd : ℝ → ℤ) (hrnd : RoundNearest rnd) (w : ℝ)
    (hw : |w| ≤ 1) (L : ℤ) (hL : 0 ≤ L) : |rnd (w * (L : ℝ))| ≤ L := by
  have h2 := hrnd (w * (L : ℝ))
  have hLr : (0 : ℝ) ≤ (L : ℝ) := by exact_mod_cast hL
  have habs : |w * (L : ℝ)| ≤ (L : ℝ) := by
    rw [abs_mul, abs_of_nonneg hLr]
    nlinarith [abs_nonneg w]
  have h3 : |(rnd (w * (L : ℝ)) : ℝ)| ≤ (L : ℝ) + 1 / 2 := by
    have t1 := abs_le.mp h2
    have t2 := abs_le.mp habs
    rw [abs_le]
    constructor <;> linarith [t1.1, t1.2, t2.1, t2.2]
  exact int_abs_le_of_real _ _ h3

/-- The bob centre stays within string-length distance of the image centre. -/
theorem bobXY_range (img bob : ℕ) (rnd : ℝ → ℤ) (hrnd : RoundNearest rnd)
    (hL : 0 ≤ strLen img bob) (q : ℝ) :
    |bobX img bob rnd q - ((img / 2 : ℕ) : ℤ)| ≤ strLen img bob ∧
    |bobY img bob rnd q - ((img / 2 : ℕ) : ℤ)| ≤ strLen img bob := by
  constructor
  · have h := rnd_mul_bound rnd hrnd (Real.cos q) (Real.abs_cos_le_one q)
      (strLen img bob) hL
    simpa [bobX, add_sub_cancel_left] using h
  · have h := rnd_mul_bound rnd hrnd (Real.sin q) (Real.abs_sin_le_one q)
      (strLen img bob) hL
    simpa [bobY, add_sub_cancel_left] using h

/-- With nonnegative string length, the whole bob square around a centre
within string-length distance of the image centre lies inside [0, img). -/
theorem bob_square_bounds (img bob : ℕ) (X : ℤ)
    (hX : |X - ((img / 2 : ℕ) : ℤ)| ≤ strLen img bob)
    (hL : 0 ≤ strLen img bob) :
    (bob : ℤ) ≤ X ∧ X + (bob : ℤ) ≤ (img : ℤ) - 2 := by
  have habs := abs_le.mp hX
  have hdef : strLen img bob = (img : ℤ) - 2 - ((img / 2 : ℕ) : ℤ) - (bob : ℤ) :=
    rfl
  rw [hdef] at habs hL
  omega

/-- The dark set of a view's distinctive channel: when every bob square is
inside the image, channel 0 is written exactly on view 0's square and
channel 2 exactly on view 1's square. -/
theorem rasterDark_distCh_iff (img bob : ℕ) (x y : Fin 2 → ℤ)
    (hx : ∀ u : Fin 2, (bob : ℤ) ≤ x u ∧ x u + (bob : ℤ) ≤ (img : ℤ) - 2 ∧
      (bob : ℤ) ≤ y u ∧ y u + (bob : ℤ) ≤ (img : ℤ) - 2)
    (v : Fin 2) (px py : ℤ) :
    rasterDark img bob x y px py (distCh v) ↔
      (x v - (bob : ℤ) ≤ px ∧ px ≤ x v + (bob : ℤ) ∧
       y v - (bob : ℤ) ≤ py ∧ py ≤ y v + (bob : ℤ)) := by
  constructor
  · rintro ⟨v2, w, di, hdi, dj, hdj, hwx, hwy, hch⟩
    have hdi2 := Finset.mem_Icc.mp hdi
    have hdj2 := Finset.mem_Icc.mp hdj
    have hv : v2 = v := by
      fin_cases v <;> fin_cases v2 <;> fin_cases w <;>
        simp_all [distCh, bobChan]
    subst hv
    have hx2 := hx v2
    have hnx : ¬ (x v2 + di < 0) := by omega
    have hny : ¬ (y v2 + dj < 0) := by omega
    rw [wrapIdx, if_neg hnx] at hwx
    rw [wrapIdx, if_neg hny] at hwy
    omega
  · rintro ⟨h1, h2, h3, h4⟩
    have hx2 := hx v
    refine ⟨v, 1, px - x v, Finset.mem_Icc.mpr (by omega),
      py - y v, Finset.mem_Icc.mpr (by omega), ?_, ?_, ?_⟩
    · rw [wrapIdx, if_neg (by omega)]
      omega
    · rw [wrapIdx, if_neg (by omega)]
      omega
    · fin_cases v <;> rfl

/-- The rounding oracle used by witnesses rounds to a nearest integer. -/
theorem rnd0_nearest : RoundNearest rnd0 := by
  intro z
  have h1 := Int.floor_le (z + 1 / 2)
  have h2 := Int.lt_floor_add_one (z + 1 / 2)
  rw [rnd0, abs_le]
  constructor <;> linarith

/-- C3: in image mode, for every batch element, trajectory sample and view,
the set of pixels the rasterizer writes in that view's distinctive channel
is exactly the square of side 2·bob+1 centred at
(img//2 + round(cos θ · str_len), img//2 + round(sin θ · str_len)); it is
non-empty, and whenever str_len ≥ 0 every written coordinate lies within
[0, img), so no index wraps or overflows. -/
theorem c3_raster_bounds (B T img bob : ℕ) (E : ℝ → ℝ → Ellipj) (rnd : ℝ → ℤ)
    (hrnd : RoundNearest rnd) (hL : 0 ≤ strLen img bob)
    (t : Fin B → Fin T → ℝ) (dT : ℝ) (k2 : Fin B → ℝ) (gaps : Bool)
    (sh : Fin B → Equiv.Perm (Fin T)) (noise : ℝ) (g : Fin B → Fin T → Fin 2 → ℝ)
    (b : Fin B) (s : Fin T) (v : Fin 2) :
    ∃ X Y : ℤ,
      X = ((img / 2 : ℕ) : ℤ) +
        rnd (Real.cos (imageGenQ B T E t dT (gapK2 B k2 gaps) sh noise g b s v) *
          (strLen img bob : ℝ)) ∧
      Y = ((img / 2 : ℕ) : ℤ) +
        rnd (Real.sin (imageGenQ B T E t dT (gapK2 B k2 gaps) sh noise g b s v) *
          (strLen img bob : ℝ)) ∧
      (∀ d : ℤ, |d| ≤ (bob : ℤ) →
        0 ≤ X + d ∧ X + d < (img : ℤ) ∧ 0 ≤ Y + d ∧ Y + d < (img : ℤ)) ∧
      (∀ j i : Fin img,
        (pendulum_train_gen_image B T img bob E rnd t dT k2 gaps sh noise g).2
            b s (distCh v) j i = 0 ↔
          (X - (bob : ℤ) ≤ (i : ℤ) ∧ (i : ℤ) ≤ X + (bob : ℤ) ∧
           Y - (bob : ℤ) ≤ (j : ℤ) ∧ (j : ℤ) ≤ Y + (bob : ℤ))) ∧
      (∃ j i : Fin img,
        (pendulum_train_gen_image B T img bob E rnd t dT k2 gaps sh noise g).2
          b s (distCh v) j i = 0) := by
  have hbnd : ∀ u : Fin 2,
      (bob : ℤ) ≤ bobX img bob rnd
        (imageGenQ B T E t dT (gapK2 B k2 gaps) sh noise g b s u) ∧
      bobX img bob rnd (imageGenQ B T E t dT (gapK2 B k2 gaps) sh noise g b s u) +
        (bob : ℤ) ≤ (img : ℤ) - 2 ∧
      (bob : ℤ) ≤ bobY img bob rnd
        (imageGenQ B T E t dT (gapK2 B k2 gaps) sh noise g b s u) ∧
      bobY img bob rnd (imageGenQ B T E t dT (gapK2 B k2 gaps) sh noise g b s u) +
        (bob : ℤ) ≤ (img : ℤ) - 2 := by
    intro u
    obtain ⟨h1, h2⟩ := bobXY_range img bob rnd hrnd hL
      (imageGenQ B T E t dT (gapK2 B k2 gaps) sh noise g b s u)
    obtain ⟨h3, h4⟩ := bob_square_bounds img bob _ h1 hL
    obtain ⟨h5, h6⟩ := bob_square_bounds img bob _ h2 hL
    exact ⟨h3, h4, h5, h6⟩
  obtain ⟨hb1, hb2, hb3, hb4⟩ := hbnd v
  refine ⟨bobX img bob rnd (imageGenQ B T E t dT (gapK2 B k2 gaps) sh noise g b s v),
    bobY img bob rnd (imageGenQ B T E t dT (gapK2 B k2 gaps) sh noise g b s v),
    rfl, rfl, ?_, ?_, ?_⟩
  · intro d hd
    have := abs_le.mp hd
    omega
  · intro j i
    have hiff := rasterDark_distCh_iff img bob
      (fun u => bobX img bob rnd (imageGenQ B T E t dT (gapK2 B k2 gaps) sh noise g b s u))
      (fun u => bobY img bob rnd (imageGenQ B T E t dT (gapK2 B k2 gaps) sh noise g b s u))
      hbnd v (i : ℤ) (j : ℤ)
    show rasterImage img bob _ _ (distCh v) j i = 0 ↔ _
    rw [rasterImage]
    by_cases hD : rasterDark img bob
        (fun u => bobX img bob rnd (imageGenQ B T E t dT (gapK2 B k2 gaps) sh noise g b s u))
        (fun u => bobY img bob rnd (imageGenQ B T E t dT (gapK2 B k2 gaps) sh noise g b s u))
        (i : ℤ) (j : ℤ) (distCh v)
    · rw [if_pos hD]
      exact ⟨fun _ => hiff.mp hD, fun _ => rfl⟩
    · rw [if_neg hD]
      refine ⟨fun h => absurd h (by norm_num), fun hsq => absurd (hiff.mpr hsq) hD⟩
  · -- the centre pixel itself is written
    have himg2 : (2 : ℤ) ≤ (img : ℤ) := by
      have hdef : strLen img bob = (img : ℤ) - 2 - ((img / 2 : ℕ) : ℤ) - (bob : ℤ) :=
        rfl
      rw [hdef] at hL
      omega
    have hXnn : 0 ≤ bobX img bob rnd (imageGenQ B T E t dT (gapK2 B k2 gaps) sh noise g b s v) := by
      omega
    have hYnn : 0 ≤ bobY img bob rnd (imageGenQ B T E t dT (gapK2 B k2 gaps) sh noise g b s v) := by
      omega
    have hXlt : (bobX img bob rnd (imageGenQ B T E t dT (gapK2 B k2 gaps) sh noise g b s v)).toNat < img := by
      omega
    have hYlt : (bobY img bob rnd (imageGenQ B T E t dT (gapK2 B k2 gaps) sh noise g b s v)).toNat < img := by
      omega
    refine ⟨⟨_, hYlt⟩, ⟨_, hXlt⟩, ?_⟩
    have hiff := rasterDark_distCh_iff img bob
      (fun u => bobX img bob rnd (imageGenQ B T E t dT (gapK2 B k2 gaps) sh noise g b s u))
      (fun u => bobY img bob rnd (imageGenQ B T E t dT (gapK2 B k2 gaps) sh noise g b s u))
      hbnd v
      ((bobX img bob rnd (imageGenQ B T E t dT (gapK2 B k2 gaps) sh noise g b s v)).toNat : ℤ)
      ((bobY img bob rnd (imageGenQ B T E t dT (gapK2 B k2 gaps) sh noise g b s v)).toNat : ℤ)
    have hdark := hiff.mpr (by omega)
    show rasterImage img bob _ _ (distCh v) _ _ = 0
    rw [rasterImage]
    simp only [if_pos hdark]

theorem c3_raster_bounds_witness :
    RoundNearest rnd0 ∧ 0 ≤ strLen 32 1 ∧
    ∃ X Y : ℤ,
      X = ((32 / 2 : ℕ) : ℤ) +
        rnd0 (Real.cos (imageGenQ 1 1 E0 (fun _ _ => 0) 0
            (gapK2 1 (fun _ => 1 / 2) false) (fun _ => Equiv.refl _) 0 0 0 0 0) *
          (strLen 32 1 : ℝ)) ∧
      Y = ((32 / 2 : ℕ) : ℤ) +
        rnd0 (Real.sin (imageGenQ 1 1 E0 (fun _ _ => 0) 0
            (gapK2 1 (fun _ => 1 / 2) false) (fun _ => Equiv.refl _) 0 0 0 0 0) *
          (strLen 32 1 : ℝ)) ∧
      (∀ d : ℤ, |d| ≤ ((1 : ℕ) : ℤ) →
        0 ≤ X + d ∧ X + d < ((32 : ℕ) : ℤ) ∧ 0 ≤ Y + d ∧ Y + d < ((32 : ℕ) : ℤ)) ∧
      (∀ j i : Fin 32,
        (pendulum_train_gen_image 1 1 32 1 E0 rnd0 (fun _ _ => 0) 0
            (fun _ => 1 / 2) false (fun _ => Equiv.refl _) 0 0).2 0 0 (distCh 0) j i = 0 ↔
          (X - ((1 : ℕ) : ℤ) ≤ (i : ℤ) ∧ (i : ℤ) ≤ X + ((1 : ℕ) : ℤ) ∧
           Y - ((1 : ℕ) : ℤ) ≤ (j : ℤ) ∧ (j : ℤ) ≤ Y + ((1 : ℕ) : ℤ))) ∧
      (∃ j i : Fin 32,
        (pendulum_train_gen_image 1 1 32 1 E0 rnd0 (fun _ _ => 0) 0
          (fun _ => 1 / 2) false (fun _ => Equiv.refl _) 0 0).2 0 0 (distCh 0) j i = 0) :=
  ⟨rnd0_nearest, by decide,
    c3_raster_bounds 1 1 32 1 E0 rnd0 rnd0_nearest (by decide) (fun _ _ => 0) 0
      (fun _ => 1 / 2) false (fun _ => Equiv.refl _) 0 0 0 0 0⟩

/-- C2: the scenario batch_size = 2, traj_samples = 1, image mode,
img_size = 32, bob_size = 1 returns a (2, 1, 3, 32, 32) image tensor
(embedded as Fin 2 → Fin 1 → Fin 3 → Fin 32 → Fin 32 → ℝ); for every
(batch, trajectory, view) the dark pixels of the view's distinctive colour
channel form exactly one contiguous 3×3 square (centred at (cx, cy) with
3 ≤ cx, cy ≤ 29, hence fully inside the image), the square is non-empty, and
the image is distinct from the background: outside the square that channel
is all-white (value 1). -/
theorem c2_image_scenario (E : ℝ → ℝ → Ellipj) (rnd : ℝ → ℤ)
    (hrnd : RoundNearest rnd) (t : Fin 2 → Fin 1 → ℝ) (dT : ℝ)
    (k2 : Fin 2 → ℝ) (sh : Fin 2 → Equiv.Perm (Fin 1))
    (g : Fin 2 → Fin 1 → Fin 2 → ℝ) (b : Fin 2) (s : Fin 1) (v : Fin 2) :
    ∃ cx cy : ℤ, 3 ≤ cx ∧ cx ≤ 29 ∧ 3 ≤ cy ∧ cy ≤ 29 ∧
      (∀ j i : Fin 32,
        (pendulum_train_gen_image 2 1 32 1 E rnd t dT k2 false sh 0 g).2
            b s (distCh v) j i = 0 ↔
          (cx - 1 ≤ (i : ℤ) ∧ (i : ℤ) ≤ cx + 1 ∧
           cy - 1 ≤ (j : ℤ) ∧ (j : ℤ) ≤ cy + 1)) ∧
      (∃ j i : Fin 32,
        (pendulum_train_gen_image 2 1 32 1 E rnd t dT k2 false sh 0 g).2
          b s (distCh v) j i = 0) ∧
      (∃ j i : Fin 32,
        (pendulum_train_gen_image 2 1 32 1 E rnd t dT k2 false sh 0 g).2
          b s (distCh v) j i = 1) := by
  have hL : 0 ≤ strLen 32 1 := by decide
  have hbnd : ∀ u : Fin 2,
      ((1 : ℕ) : ℤ) ≤ bobX 32 1 rnd
        (imageGenQ 2 1 E t dT (gapK2 2 k2 false) sh 0 g b s u) ∧
      bobX 32 1 rnd (imageGenQ 2 1 E t dT (gapK2 2 k2 false) sh 0 g b s u) +
        ((1 : ℕ) : ℤ) ≤ ((32 : ℕ) : ℤ) - 2 ∧
      ((1 : ℕ) : ℤ) ≤ bobY 32 1 rnd
        (imageGenQ 2 1 E t dT (gapK2 2 k2 false) sh 0 g b s u) ∧
      bobY 32 1 rnd (imageGenQ 2 1 E t dT (gapK2 2 k2 false) sh 0 g b s u) +
        ((1 : ℕ) : ℤ) ≤ ((32 : ℕ) : ℤ) - 2 := by
    intro u
    obtain ⟨h1, h2⟩ := bobXY_range 32 1 rnd hrnd hL
      (imageGenQ 2 1 E t dT (gapK2 2 k2 false) sh 0 g b s u)
    obtain ⟨h3, h4⟩ := bob_square_bounds 32 1 _ h1 hL
    obtain ⟨h5, h6⟩ := bob_square_bounds 32 1 _ h2 hL
    exact ⟨h3, h4, h5, h6⟩
  obtain ⟨hx1, hx2⟩ := bobXY_range 32 1 rnd hrnd hL
    (imageGenQ 2 1 E t dT (gapK2 2 k2 false) sh 0 g b s v)
  have hxa := abs_le.mp hx1
  have hya := abs_le.mp hx2
  have h16 : ((32 / 2 : ℕ) : ℤ) = 16 := by decide
  have h13 : strLen 32 1 = 13 := by decide
  rw [h16, h13] at hxa hya
  have hiffD : ∀ px py : ℤ,
      rasterDark 32 1
        (fun u => bobX 32 1 rnd (imageGenQ 2 1 E t dT (gapK2 2 k2 false) sh 0 g b s u))
        (fun u => bobY 32 1 rnd (imageGenQ 2 1 E t dT (gapK2 2 k2 false) sh 0 g b s u))
        px py (distCh v) ↔
      (bobX 32 1 rnd (imageGenQ 2 1 E t dT (gapK2 2 k2 false) sh 0 g b s v) -
          ((1 : ℕ) : ℤ) ≤ px ∧
        px ≤ bobX 32 1 rnd (imageGenQ 2 1 E t dT (gapK2 2 k2 false) sh 0 g b s v) +
          ((1 : ℕ) : ℤ) ∧
        bobY 32 1 rnd (imageGenQ 2 1 E t dT (gapK2 2 k2 false) sh 0 g b s v) -
          ((1 : ℕ) : ℤ) ≤ py ∧
        py ≤ bobY 32 1 rnd (imageGenQ 2 1 E t dT (gapK2 2 k2 false) sh 0 g b s v) +
          ((1 : ℕ) : ℤ)) :=
    fun px py => rasterDark_distCh_iff 32 1 _ _ hbnd v px py
  refine ⟨bobX 32 1 rnd (imageGenQ 2 1 E t dT (gapK2 2 k2 false) sh 0 g b s v),
    bobY 32 1 rnd (imageGenQ 2 1 E t dT (gapK2 2 k2 false) sh 0 g b s v),
    by omega, by omega, by omega, by omega, ?_, ?_, ?_⟩
  · intro j i
    show rasterImage 32 1 _ _ (distCh v) j i = 0 ↔ _
    rw [rasterImage]
    by_cases hD : rasterDark 32 1
        (fun u => bobX 32 1 rnd (imageGenQ 2 1 E t dT (gapK2 2 k2 false) sh 0 g b s u))
        (fun u => bobY 32 1 rnd (imageGenQ 2 1 E t dT (gapK2 2 k2 false) sh 0 g b s u))
        (i : ℤ) (j : ℤ) (distCh v)
    · rw [if_pos hD]
      have := (hiffD (i : ℤ) (j : ℤ)).mp hD
      exact ⟨fun _ => by push_cast at this ⊢; omega, fun _ => rfl⟩
    · rw [if_neg hD]
      refine ⟨fun h => absurd h (by norm_num), fun hsq => ?_⟩
      exact absurd ((hiffD (i : ℤ) (j : ℤ)).mpr (by push_cast at hsq ⊢; omega)) hD
  · -- the centre pixel is dark
    have hXnn : 0 ≤ bobX 32 1 rnd (imageGenQ 2 1 E t dT (gapK2 2 k2 false) sh 0 g b s v) := by
      omega
    have hYnn : 0 ≤ bobY 32 1 rnd (imageGenQ 2 1 E t dT (gapK2 2 k2 false) sh 0 g b s v) := by
      omega
    have hXlt : (bobX 32 1 rnd (imageGenQ 2 1 E t dT (gapK2 2 k2 false) sh 0 g b s v)).toNat < 32 := by
      omega
    have hYlt : (bobY 32 1 rnd (imageGenQ 2 1 E t dT (gapK2 2 k2 false) sh 0 g b s v)).toNat < 32 := by
      omega
    refine ⟨⟨_, hYlt⟩, ⟨_, hXlt⟩, ?_⟩
    show rasterImage 32 1 _ _ (distCh v) _ _ = 0
    rw [rasterImage]
    have hdark := (hiffD
      ((bobX 32 1 rnd (imageGenQ 2 1 E t dT (gapK2 2 k2 false) sh 0 g b s v)).toNat : ℤ)
      ((bobY 32 1 rnd (imageGenQ 2 1 E t dT (gapK2 2 k2 false) sh 0 g b s v)).toNat : ℤ)).mpr
      (by omega)
    simp only [if_pos hdark]
  · -- the corner pixel (0, 0) of that channel is white
    refine ⟨⟨0, by omega⟩, ⟨0, by omega⟩, ?_⟩
    show rasterImage 32 1 _ _ (distCh v) _ _ = 1
    rw [rasterImage]
    rw [if_neg]
    intro hD
    have := (hiffD _ _).mp hD
    simp only [Fin.val_mk, Nat.cast_ofNat, Int.Nat.cast_ofNat_Int] at this
    omega

theorem c2_image_scenario_witness :
    RoundNearest rnd0 ∧
    ∃ cx cy : ℤ, 3 ≤ cx ∧ cx ≤ 29 ∧ 3 ≤ cy ∧ cy ≤ 29 ∧
      (∀ j i : Fin 32,
        (pendulum_train_gen_image 2 1 32 1 E0 rnd0 (fun _ _ => 0) 0
            (fun _ => 1 / 2) false (fun _ => Equiv.refl _) 0 0).2
            0 0 (distCh 0) j i = 0 ↔
          (cx - 1 ≤ (i : ℤ) ∧ (i : ℤ) ≤ cx + 1 ∧
           cy - 1 ≤ (j : ℤ) ∧ (j : ℤ) ≤ cy + 1)) ∧
      (∃ j i : Fin 32,
        (pendulum_train_gen_image 2 1 32 1 E0 rnd0 (fun _ _ => 0) 0
          (fun _ => 1 / 2) false (fun _ => Equiv.refl _) 0 0).2
          0 0 (distCh 0) j i = 0) ∧
      (∃ j i : Fin 32,
        (pendulum_train_gen_image 2 1 32 1 E0 rnd0 (fun _ _ => 0) 0
          (fun _ => 1 / 2) false (fun _ => Equiv.refl _) 0 0).2
          0 0 (distCh 0) j i = 1) :=
  ⟨rnd0_nearest,
    c2_image_scenario E0 rnd0 rnd0_nearest (fun _ _ => 0) 0 (fun _ => 1 / 2)
      (fun _ => Equiv.refl _) 0 0 0 0⟩
